import Mathlib

set_option maxRecDepth 100000

/-!
Verification development for the VxWorks firmware analysis core
(`firmware_tools/vxhunter_ghidra.py`, class `VxTarget`).

The firmware image is modelled as a `List Nat` of byte values.  Python
string slicing (which clamps out-of-range bounds) is modelled by
`sliceList`; negative-index slicing `data[-n:]` is modelled by `lastN`.
Out-of-range single-byte indexing raises `IndexError` in Python and is
modelled by `Except.error ()`.  Loops are modelled by structural
recursion; where the source loop has an exact iteration count the gas
argument is initialised to that count, and where the source loop can
run unboundedly a fuel argument with an explicit fuel-out result is
used.
-/

/-- Python slice `l[a:b]` for non-negative bounds: clamps to the list. -/
def sliceList (l : List Nat) (a b : Nat) : List Nat :=
  (l.drop a).take (b - a)

/-- Python slice `l[-n:]`: the last `n` elements (whole list when shorter). -/
def lastN (l : List Nat) (n : Nat) : List Nat :=
  l.drop (l.length - n)

/-- Scan `i, i+1, ..., i+n-1` and return the first index satisfying `p`.
Models a Python `for`/`while` loop over increasing indices with an early
return on the first hit. -/
def firstHit (p : Nat → Bool) : Nat → Nat → Option Nat
  | _, 0 => none
  | i, n + 1 => if p i then some i else firstHit p (i + 1) n

/-- Source pattern `count = len(...) if len(...) < default_check_count else 100`
with `default_check_count = 100`; used by `_check_fix`,
`_check_load_address` and `find_string_table_by_key_function_index`. -/
def checkCount (n : Nat) : Nat := if n < 100 then n else 100

/-- Python truthiness of an optional integer: `None` and `0` are falsy. -/
def truthyOpt : Option Nat → Bool
  | none => false
  | some n => n ≠ 0

/-- Source `VxTarget._is_printable`: `32 <= ord(c) <= 126`. -/
def isPrintableByte (b : Nat) : Bool := 32 ≤ b && b ≤ 126

/-- Source global `symbol_format_sign_5` (four 4-byte type signatures). -/
def symbolFormatSign5 : List (List Nat) :=
  [[0, 0, 5, 0], [0, 0, 7, 0], [0, 0, 9, 0], [0, 0, 17, 0]]

/-- Source global `symbol_format_sign_6` (five 8-byte type signatures). -/
def symbolFormatSign6 : List (List Nat) :=
  [[0, 0, 0, 0, 0, 0, 3, 0], [0, 0, 0, 0, 0, 0, 5, 0], [0, 0, 0, 0, 0, 0, 7, 0],
   [0, 0, 0, 0, 0, 0, 9, 0], [0, 0, 0, 0, 0, 0, 17, 0]]

/-- Source global `known_address`. -/
def knownAddressList : List Nat :=
  [0x80002000, 0x10000, 0x1000, 0xf2003fe4, 0x100000, 0x107fe0]

/-- Byte sequence of the anchor `'\x00' + 'bzero' + '\x00'` used by
`find_loading_address`. -/
def keyBzero : List Nat := [0, 98, 122, 101, 114, 111, 0]

/-- Source `bad_str` list of `_check_is_func_name`, as byte values of
the characters backslash, percent, plus, comma, ampersand, slash. -/
def badBytes : List Nat := [92, 37, 43, 44, 38, 47]

/-- Source `_symbol_interval`: 16 for VxWorks 5, 20 for VxWorks 6 (for any
other version the attribute is never set; theorems restrict to 5 and 6). -/
def symbolInterval (ver : Nat) : Nat :=
  if ver = 5 then 16 else if ver = 6 then 20 else 0

/-- Source `VxTarget._check_symbol_format_simple`: decide whether one
record-sized byte window looks like a symbol record. -/
def checkSymbolFormatSimple (ver : Nat) (data : List Nat) : Bool :=
  if ver = 5 then
    if data.take 4 ≠ [0, 0, 0, 0] then false
    else if sliceList data 4 8 = [0, 0, 0, 0] then false
    else if sliceList data 8 12 = [0, 0, 0, 0] then false
    else symbolFormatSign5.any fun s => lastN data 4 == s
  else if ver = 6 then
    if data.take 4 ≠ [0, 0, 0, 0] then false
    else if sliceList data 4 8 = [0, 0, 0, 0] then false
    else symbolFormatSign6.contains (lastN data 8)
  else false

/-- Source `VxTarget._check_symbol_format`: ten consecutive windows must
pass `_check_symbol_format_simple`; for version 5 additionally exactly one
of the two 2-byte sub-fields at offsets 4 and 6 must repeat across the run. -/
def checkSymbolFormat (fw : List Nat) (ver : Nat) (offset : Nat) : Bool :=
  let intv := symbolInterval ver
  let cd := sliceList fw offset (offset + intv * 10)
  if ¬ ((List.range 10).all fun i =>
      checkSymbolFormatSimple ver (sliceList cd (i * intv) ((i + 1) * intv))) then
    false
  else if ver = 5 then
    let isBig := (List.range 9).all fun i =>
      sliceList cd (4 + i * intv) (6 + i * intv) ==
        sliceList cd (4 + (i + 1) * intv) (6 + (i + 1) * intv)
    let isLittle := (List.range 9).all fun i =>
      sliceList cd (6 + i * intv) (8 + i * intv) ==
        sliceList cd (6 + (i + 1) * intv) (8 + (i + 1) * intv)
    Bool.xor isBig isLittle
  else true

/-- Source `VxTarget._check_vxworks_endian`: compare 2-byte sub-fields of
the first two records; returns 1 (big endian) or 2 (little endian, which is
also the fallback). -/
def checkVxworksEndian (fw : List Nat) (s intv : Nat) : Nat :=
  let d1 := sliceList fw (s + 4) (s + 4 + intv)
  let d2 := sliceList fw (s + 4 + intv) (s + 4 + 2 * intv)
  if d1.take 2 = d2.take 2 then 1
  else if sliceList d1 2 4 = sliceList d2 2 4 then 2
  else 2

/-- One decoded symbol-table record (source dict built by
`get_symbol_table`): name address, destination address, byte offset of the
record in the image, and the derived name length (`None` until backfilled,
and `None` forever for the last record). -/
structure SymRec where
  nameAddr : Nat
  destAddr : Nat
  offset : Nat
  nameLength : Option Nat
deriving DecidableEq

/-- One decoded string-table record (source dict built by
`get_string_table`). -/
structure StrRec where
  address : Nat
  bytes : List Nat
  len : Nat
deriving DecidableEq

/-- Tail scan of `find_symbol_table` (the `for i in range(start, len, interval)`
loop): extend the table one record at a time while
`_check_symbol_format_simple` passes; `cur` is the current value of
`symbol_table_end`.  On the first failure the source logs
`hex(self.symbol_table_end)`, which raises `TypeError` when the end is still
`None`; gas is the exact iteration count of the range. -/
def endScanGo (fw : List Nat) (ver : Nat) : Nat → Option Nat → Nat → Except Unit (Option Nat)
  | _, cur, 0 => .ok cur
  | i, cur, g + 1 =>
    if checkSymbolFormatSimple ver (sliceList fw i (i + symbolInterval ver)) then
      endScanGo fw ver (i + symbolInterval ver) (some (i + symbolInterval ver)) g
    else
      match cur with
      | none => .error ()
      | some e => .ok (some e)

/-- Source `VxTarget.find_symbol_table`: result is
(symbol_table_start, symbol_table_end, _has_symbol).  The test
`if self.symbol_table_start:` uses Python truthiness, so a table starting at
offset 0 skips the end scan and has `_has_symbol` forced to `False`. -/
def findSymbolTableRun (fw : List Nat) (ver : Nat) : Except Unit (Option Nat × Option Nat × Bool) :=
  match firstHit (fun off => checkSymbolFormat fw ver off) 0 fw.length with
  | none => .ok (none, none, false)
  | some s =>
    if s ≠ 0 then
      (endScanGo fw ver s none
        ((fw.length - s + symbolInterval ver - 1) / symbolInterval ver)).map
        (fun e => (some s, e, true))
    else .ok (some s, none, false)

/-- Source `struct.unpack('>I' / '<I', data)[0]` as used by
`get_symbol_table`: a 4-byte read with the detected endianness.  A slice of
the wrong length raises `struct.error`; an endianness other than 1 or 2
leaves `unpack_format` unbound and raises `NameError`. -/
def decodeWord (endian : Option Nat) (bs : List Nat) : Except Unit Nat :=
  match bs, endian with
  | [a, b, c, d], some 1 => .ok (((a * 256 + b) * 256 + c) * 256 + d)
  | [a, b, c, d], some 2 => .ok (((d * 256 + c) * 256 + b) * 256 + a)
  | _, _ => .error ()

/-- Decode loop of `get_symbol_table` over `range(start, end, interval)`;
gas is the exact iteration count. -/
def decodeRecsGo (fw : List Nat) (endian : Option Nat) (intv : Nat) :
    Nat → List SymRec → Nat → Except Unit (List SymRec)
  | _, acc, 0 => .ok acc
  | i, acc, g + 1 =>
    match decodeWord endian (sliceList fw (i + 4) (i + 8)),
          decodeWord endian (sliceList fw (i + 8) (i + 12)) with
    | .ok na, .ok da => decodeRecsGo fw endian intv (i + intv) (acc ++ [⟨na, da, i, none⟩]) g
    | _, _ => .error ()

/-- Stable insertion (ascending by `nameAddr`) used to model the Python
stable `sorted(..., key=lambda x: x['symbol_name_addr'])`. -/
def insertSym (r : SymRec) : List SymRec → List SymRec
  | [] => [r]
  | s :: ss => if r.nameAddr < s.nameAddr then r :: s :: ss else s :: insertSym r ss

/-- Stable sort by `nameAddr` (insertion sort, processing left to right). -/
def sortSyms (l : List SymRec) : List SymRec :=
  l.foldl (fun acc r => insertSym r acc) []

/-- Backfill loop of `get_symbol_table`:
`nameLength[i] = nameAddr[i+1] - nameAddr[i]` for all but the last record. -/
def backfill : List SymRec → List SymRec
  | [] => []
  | [r] => [r]
  | r :: r2 :: rs => { r with nameLength := some (r2.nameAddr - r.nameAddr) } :: backfill (r2 :: rs)

/-- Source `VxTarget.get_symbol_table`: when both table bounds are truthy,
the endianness is recomputed by `_check_vxworks_endian` (overwriting any
caller-supplied value) and the records are decoded, sorted and backfilled;
otherwise the method returns `False` leaving the symbol table empty.
Result: (resulting `_endian`, `_symbol_table`). -/
def getSymbolTableRun (fw : List Nat) (ver : Nat) (ts te : Option Nat) (endian : Option Nat) :
    Except Unit (Option Nat × List SymRec) :=
  match ts, te with
  | some s, some e =>
    if s ≠ 0 ∧ e ≠ 0 then
      let en := checkVxworksEndian fw s (symbolInterval ver)
      match decodeRecsGo fw (some en) (symbolInterval ver) s []
          ((e - s + symbolInterval ver - 1) / symbolInterval ver) with
      | .error u => .error u
      | .ok recs => .ok (some en, backfill (sortSyms recs))
    else .ok (endian, [])
  | _, _ => .ok (endian, [])

/-- Analysis state after `prepare`: the instance fields of `VxTarget` that
the later phases read. -/
structure VxState where
  hasSymbol : Bool
  tabStart : Option Nat
  tabEnd : Option Nat
  endian : Option Nat
  symTab : List SymRec
deriving DecidableEq

/-- Source `VxTarget.prepare`: `find_symbol_table`, then (only when a
symbol table was found) `get_symbol_table`. -/
def prepareRun (fw : List Nat) (ver : Nat) (endian : Option Nat) : Except Unit VxState :=
  match findSymbolTableRun fw ver with
  | .error u => .error u
  | .ok (ts, te, has) =>
    if has = false then .ok ⟨false, ts, te, endian, []⟩
    else
      match getSymbolTableRun fw ver ts te endian with
      | .error u => .error u
      | .ok (en, tab) => .ok ⟨true, ts, te, en, tab⟩

/-- One well-formed VxWorks 5 symbol record with a constant big-endian
name-address high half and a varying low byte. -/
def symRec5 (i : Nat) : List Nat :=
  [0, 0, 0, 0, 18, 52, 0, i + 1, 0, 0, 0, 1, 0, 0, 5, 0]

/-- A 192-byte synthetic image consisting of exactly twelve well-formed
VxWorks 5 records starting at offset 0. -/
def c2img : List Nat := ((List.range 12).map symRec5).flatten

/-- The same twelve records preceded by one non-matching byte, so the
table starts at offset 1. -/
def c7img : List Nat := 255 :: c2img

/-- Byte test used by the string scanners: true when the byte at index `j`
exists and is non-null. -/
def nonNullAt (fw : List Nat) (j : Nat) : Bool :=
  match fw.get? j with
  | some b => b ≠ 0
  | none => false

/-- Inner loop of `_get_next_string_data`
(`while offset <= len: offset += 1; if fw[offset] == 0: end = offset; break`):
starting from the non-null byte at `offset`, look for the terminating null.
The loop indexes `fw[offset]` immediately after incrementing, so a printable
run that reaches the last byte of the image reads `fw[len(fw)]` and raises
`IndexError`, modelled as `Except.error ()`.  On loop exhaustion without a
break the end address keeps its initial value `start`; gas is initialised to
`len + 1 - offset`, the exact remaining iteration count. -/
def nextInnerGo (fw : List Nat) (start : Nat) : Nat → Nat → Except Unit Nat
  | _, 0 => .ok start
  | offset, g + 1 =>
    match fw.get? (offset + 1) with
    | none => .error ()
    | some b => if b = 0 then .ok (offset + 1) else nextInnerGo fw start (offset + 1) g

/-- Source `VxTarget._get_next_string_data`: returns
(string bytes, start offset, end offset) of the next null-terminated string
at or after `off`, `none` when only null bytes remain, and an error when the
scan runs past the end of the image. -/
def getNextStringData (fw : List Nat) (off : Nat) : Except Unit (Option (List Nat × Nat × Nat)) :=
  match firstHit (nonNullAt fw) off (fw.length - off) with
  | none => .ok none
  | some s =>
    (nextInnerGo fw s s (fw.length + 1 - s)).map fun e => some (sliceList fw s e, s, e)

/-- Outer loop of `_get_prev_string_data` (`while offset > 0`): walk
backwards to the closest non-null byte, never examining index 0; an
out-of-range read raises `IndexError`. -/
def prevOuterGo (fw : List Nat) : Nat → Except Unit (Option Nat)
  | 0 => .ok none
  | j + 1 =>
    match fw.get? (j + 1) with
    | none => .error ()
    | some b => if b ≠ 0 then .ok (some (j + 1)) else prevOuterGo fw j

/-- Inner loop of `_get_prev_string_data`: from the non-null byte at `j`,
walk back until the byte before the current position is null; when the walk
reaches index 0 without finding a null the start address keeps its initial
value (the source only assigns it on the break). -/
def prevInnerGo (fw : List Nat) : Nat → Option Nat
  | 0 => none
  | j + 1 => if fw.getD j 0 = 0 then some (j + 1) else prevInnerGo fw j

/-- Source `VxTarget._get_prev_string_data`: returns
(string bytes, start offset, end offset) of the string containing the
closest non-null byte at or before `off`. -/
def getPrevStringData (fw : List Nat) (off : Nat) : Except Unit (Option (List Nat × Nat × Nat)) :=
  match prevOuterGo fw off with
  | .error u => .error u
  | .ok none => .ok none
  | .ok (some j) =>
    let start := (prevInnerGo fw j).getD j
    .ok (some (sliceList fw start (j + 1), start, j + 1))

/-- Source `VxTarget._check_is_func_name`: length at most 255, none of the
bad characters, all bytes printable. -/
def checkIsFuncName (s : List Nat) : Bool :=
  if 255 < s.length then false
  else if badBytes.any (fun b => s.contains b) then false
  else s.all isPrintableByte

/-- Default symbol record for in-range list indexing. -/
def symDefault : SymRec := ⟨0, 0, 0, none⟩

/-- Default string record for in-range list indexing. -/
def strDefault : StrRec := ⟨0, [], 0⟩

/-- Name address of `symTab[i]` (indexing is always in range at call sites,
matching the Python list indexing). -/
def nameAddrAt (symTab : List SymRec) (i : Nat) : Nat :=
  (symTab.getD i symDefault).nameAddr

/-- The offset `symbol_name_addr - address` computed by
`_check_load_address`, as a (possibly negative) Python integer. -/
def offAt (symTab : List SymRec) (address i : Nat) : Int :=
  (nameAddrAt symTab i : Int) - (address : Int)

/-- Loop body of `_check_load_address` over the first `count` records:
reject when the offset is not strictly positive, or when the next string
does not start exactly at the offset; gas counts the remaining records. -/
def claLoopGo (fw : List Nat) (symTab : List SymRec) (address : Nat) : Nat → Nat → Except Unit Bool
  | _, 0 => .ok true
  | i, g + 1 =>
    let off := offAt symTab address i
    if off ≤ 0 then .ok false
    else
      match getNextStringData fw off.toNat with
      | .error u => .error u
      | .ok none => .ok false
      | .ok (some (_, sa, _)) =>
        if sa = off.toNat then claLoopGo fw symTab address (i + 1) g else .ok false

/-- Source `VxTarget._check_load_address`: `False` without a symbol table,
otherwise sample the first `min(len(symbolTable), 100)` records. -/
def checkLoadAddressRun (fw : List Nat) (symTab : List SymRec) (has : Bool) (address : Nat) :
    Except Unit Bool :=
  if has = false then .ok false
  else claLoopGo fw symTab address 0 (checkCount symTab.length)

/-- Candidate loop of `quick_test`: return the first candidate accepted by
`_check_load_address`, `none` when all candidates are rejected. -/
def qtLoop (fw : List Nat) (symTab : List SymRec) (has : Bool) : List Nat → Except Unit (Option Nat)
  | [] => .ok none
  | a :: rest =>
    match checkLoadAddressRun fw symTab has a with
    | .error u => .error u
    | .ok true => .ok (some a)
    | .ok false => qtLoop fw symTab has rest

/-- Source `VxTarget.quick_test`: `prepare`, then try the fixed
`known_address` list. -/
def quickTestRun (fw : List Nat) (ver : Nat) (endian : Option Nat) : Except Unit (Option Nat) :=
  match prepareRun fw ver endian with
  | .error u => .error u
  | .ok st =>
    if st.hasSymbol = false then .ok none
    else qtLoop fw st.symTab st.hasSymbol knownAddressList

/-- Outcome of one iteration of an expansion loop of
`find_string_table_by_key_function_index`. -/
inductive ScanStep where
  /-- An uncaught Python exception. -/
  | crash : ScanStep
  /-- The `return None, None` failure path. -/
  | fail : ScanStep
  /-- A `break` or a falsified loop condition: expansion in this direction
  ends with the accumulated list. -/
  | done (temp : List (List Nat × Nat × Nat)) : ScanStep
  /-- The loop continues with a new accumulated list and scan position. -/
  | cont (temp : List (List Nat × Nat × Nat)) (pos : Nat) : ScanStep
deriving DecidableEq

/-- Result of a whole expansion loop. -/
inductive ScanOut where
  | fuelOut : ScanOut
  | crash : ScanOut
  | fail : ScanOut
  | done (temp : List (List Nat × Nat × Nat)) : ScanOut
deriving DecidableEq

/-- One iteration of the backward loop (`while start_offset > 0`) of
`find_string_table_by_key_function_index`.  The debug logging between the
two string fetches calls `hex(...)` on the fetched addresses, so a fetch
that returns `None` raises `TypeError` (crash). -/
def backwardStep (fw : List Nat) (count : Nat) (temp : List (List Nat × Nat × Nat))
    (startOffset : Nat) : ScanStep :=
  if startOffset = 0 then .done temp
  else
    match fw.get? startOffset with
    | none => .crash
    | some b =>
      if isPrintableByte b then
        match getPrevStringData fw startOffset with
        | .error _ => .crash
        | .ok none => .crash
        | .ok (some (s, sa, ea)) =>
          if checkIsFuncName s = false then
            if temp.length < count then .fail else .done temp
          else
            let temp2 := temp ++ [(s, sa, ea)]
            match getPrevStringData fw (sa - 1) with
            | .error _ => .crash
            | .ok none => .crash
            | .ok (some (_, psa, pea)) =>
              if psa ≠ 0 then
                if 4 < (sa : Int) - (pea : Int) then
                  if temp2.length < count then .fail else .done temp2
                else .cont temp2 (sa - 1)
              else .done temp2
      else .cont temp (startOffset - 1)

/-- One iteration of the forward loop (`while end_offset < len`) of
`find_string_table_by_key_function_index`.  When the fetched string fails
the name predicate and fewer than `count` names are accumulated, the source
clears the accumulated list and continues scanning (it does not fail); when
the follow-up fetch returns a falsy start address the loop continues without
advancing. -/
def forwardStep (fw : List Nat) (count : Nat) (temp : List (List Nat × Nat × Nat))
    (endOffset : Nat) : ScanStep :=
  if fw.length ≤ endOffset then .done temp
  else
    match fw.get? endOffset with
    | none => .crash
    | some b =>
      if isPrintableByte b then
        match getNextStringData fw endOffset with
        | .error _ => .crash
        | .ok none => .crash
        | .ok (some (s, sa, ea)) =>
          if checkIsFuncName s = false then
            if temp.length < count then .cont [] ea
            else .done temp
          else
            let temp2 := temp ++ [(s, sa, ea)]
            match getNextStringData fw ea with
            | .error _ => .crash
            | .ok none => .cont temp2 endOffset
            | .ok (some (_, nsa, _)) =>
              if nsa ≠ 0 then
                if 4 < (nsa : Int) - (ea : Int) then
                  if temp2.length < count then .fail else .done temp2
                else .cont temp2 ea
              else .cont temp2 endOffset
      else .cont temp (endOffset + 1)

/-- Run the backward loop to completion (with fuel). -/
def backwardGo (fw : List Nat) (count : Nat) :
    List (List Nat × Nat × Nat) → Nat → Nat → ScanOut
  | _, _, 0 => .fuelOut
  | temp, so, f + 1 =>
    match backwardStep fw count temp so with
    | .crash => .crash
    | .fail => .fail
    | .done t => .done t
    | .cont t so2 => backwardGo fw count t so2 f

/-- Run the forward loop to completion (with fuel). -/
def forwardGo (fw : List Nat) (count : Nat) :
    List (List Nat × Nat × Nat) → Nat → Nat → ScanOut
  | _, _, 0 => .fuelOut
  | temp, eo, f + 1 =>
    match forwardStep fw count temp eo with
    | .crash => .crash
    | .fail => .fail
    | .done t => .done t
    | .cont t eo2 => forwardGo fw count t eo2 f

/-- Stable insertion by string start address, modelling the Python stable
`sorted(temp_str_tab_data, key=lambda x: x[1])`. -/
def insertChunk (c : List Nat × Nat × Nat) :
    List (List Nat × Nat × Nat) → List (List Nat × Nat × Nat)
  | [] => [c]
  | d :: ds => if c.2.1 < d.2.1 then c :: d :: ds else d :: insertChunk c ds

/-- Stable sort by start address. -/
def sortChunks (l : List (List Nat × Nat × Nat)) : List (List Nat × Nat × Nat) :=
  l.foldl (fun acc c => insertChunk c acc) []

/-- Last element with a default. -/
def lastD (d : List Nat × Nat × Nat) : List (List Nat × Nat × Nat) → (List Nat × Nat × Nat)
  | [] => d
  | c :: cs => lastD c cs

/-- Result of `find_string_table_by_key_function_index`. -/
inductive LocRes where
  | fuelOut : LocRes
  | crash : LocRes
  /-- The `return None, None` path. -/
  | fail : LocRes
  | found (tabStart tabEnd : Nat) : LocRes
deriving DecidableEq

/-- Source `VxTarget.find_string_table_by_key_function_index`: expand
backward, then forward, sort the accumulated strings by start address and
return the first start and last end.  Indexing `temp[0]` of an empty
accumulated list raises `IndexError` (crash). -/
def findStringTable (fw : List Nat) (symLen : Nat) (keyOffset : Nat) (fuel : Nat) : LocRes :=
  let count := checkCount symLen
  match backwardGo fw count [] keyOffset fuel with
  | .fuelOut => .fuelOut
  | .crash => .crash
  | .fail => .fail
  | .done t1 =>
    match forwardGo fw count t1 keyOffset fuel with
    | .fuelOut => .fuelOut
    | .crash => .crash
    | .fail => .fail
    | .done t2 =>
      match sortChunks t2 with
      | [] => .crash
      | c :: cs => .found c.2.1 (lastD c cs).2.2

/-- Result of `get_string_table`. -/
inductive GstRes where
  | fuelOut : GstRes
  | crash : GstRes
  | ok (recs : List StrRec) : GstRes
deriving DecidableEq

/-- Inner loop of `get_string_table`
(`while offset <= end: offset += 1; if fw[offset] != 0: ... break`): from the
null byte at `offset`, find the next non-null byte.  The read happens right
after the increment, so the byte at `end + 1` can be read; an out-of-range
read is an `IndexError`.  Gas is initialised to `end + 1 - offset`, the
exact remaining iteration count, and gas 0 is exactly the falsified loop
condition (no record is emitted then). -/
def gstInnerGo (fw : List Nat) : Nat → Nat → Except Unit (Option Nat)
  | _, 0 => .ok none
  | offset, g + 1 =>
    match fw.get? (offset + 1) with
    | none => .error ()
    | some b => if b ≠ 0 then .ok (some (offset + 1)) else gstInnerGo fw (offset + 1) g

/-- Outer loop of `get_string_table` (`while offset <= end`): split the
range at null runs into records `{address, bytes, length}`.  Each record
runs from `address` up to the next non-null byte, so it includes its whole
terminating null run. -/
def gstGo (fw : List Nat) (endA : Nat) : Nat → Nat → List StrRec → Nat → GstRes
  | _, _, _, 0 => .fuelOut
  | offset, address, acc, f + 1 =>
    if offset ≤ endA then
      match fw.get? offset with
      | none => .crash
      | some b =>
        if b = 0 then
          match gstInnerGo fw offset (endA + 1 - offset) with
          | .error _ => .crash
          | .ok none => .ok acc
          | .ok (some nxt) =>
            gstGo fw endA nxt nxt (acc ++ [⟨address, sliceList fw address nxt, nxt - address⟩]) f
        else gstGo fw endA (offset + 1) address acc f
    else .ok acc

/-- Source `VxTarget.get_string_table` for table bounds `[s, e]` (the end
bound is inclusive in the source loops). -/
def getStringTableRun (fw : List Nat) (s e : Nat) : GstRes :=
  gstGo fw e s s [] (e + 2)

/-- Length comparison
`string_table[str_index].length == symbol_table[func_index].symbol_name_length`
of the resolver; a `None` name length compares unequal to every integer. -/
def lengthMatchB (symTab : List SymRec) (strTab : List StrRec) (fi si : Nat) : Bool :=
  match symTab.get? fi, strTab.get? si with
  | some sy, some st => sy.nameLength == some st.len
  | _, _ => false

/-- Loop of `_check_fix` with `steps` iterations remaining (the source
index `i` equals `count - steps`): bounds are checked first, the final
iteration returns `True` without comparing, and a length mismatch returns
`False`.  A completed loop without a return yields Python `None`. -/
def checkFixGo (symTab : List SymRec) (strTab : List StrRec) : Nat → Nat → Nat → Option Bool
  | 0, _, _ => none
  | steps + 1, fi, si =>
    if symTab.length ≤ fi ∨ strTab.length ≤ si then some false
    else if steps = 0 then some true
    else if lengthMatchB symTab strTab fi si then checkFixGo symTab strTab steps (fi + 1) (si + 1)
    else some false

/-- Source `VxTarget._check_fix`. -/
def checkFix (symTab : List SymRec) (strTab : List StrRec) (fi si : Nat) : Option Bool :=
  checkFixGo symTab strTab (checkCount symTab.length) fi si

/-- Acceptance test of the resolver loop body at a pair (fi, si):
the immediate lengths match and `_check_fix(fi, si) is True`. -/
def goodPairB (symTab : List SymRec) (strTab : List StrRec) (fi si : Nat) : Bool :=
  lengthMatchB symTab strTab fi si && decide (checkFix symTab strTab fi si = some true)

/-- The load address computed for an accepted pair:
`symbol_name_addr - string address` as a Python integer. -/
def loadAddrAt (symTab : List SymRec) (strTab : List StrRec) (fi si : Nat) : Int :=
  (nameAddrAt symTab fi : Int) - ((strTab.getD si strDefault).address : Int)

/-- Core double loop of `find_loading_address` (after the tables are built):
for each symbol index in order, for each string index in order, accept the
first pair passing `goodPairB`; `none` when the loops complete. -/
def findLoadAddressCore (symTab : List SymRec) (strTab : List StrRec) : Option Int :=
  match firstHit (fun fi => (firstHit (goodPairB symTab strTab fi) 0 strTab.length).isSome)
      0 symTab.length with
  | none => none
  | some fi =>
    match firstHit (goodPairB symTab strTab fi) 0 strTab.length with
    | none => none
    | some si => some (loadAddrAt symTab strTab fi si)

/-- First occurrence of the byte pattern `pat` in `fw`
(Python `str.index`, `none` models the `ValueError`). -/
def findSub (fw : List Nat) (pat : List Nat) : Option Nat :=
  firstHit (fun i => sliceList fw i (i + pat.length) == pat) 0 fw.length

/-- Result of `find_loading_address`. -/
inductive LoadRes where
  | fuelOut : LoadRes
  | crash : LoadRes
  | res (a : Option Int) : LoadRes
deriving DecidableEq

/-- Phase of `find_loading_address` after `prepare`, depending only on the
image, `_has_symbol` and `_symbol_table`.  The keyword guard
`if key_word in self._firmware is False:` is a chained comparison
`(key_word in fw) and (fw is False)` whose right conjunct is always false
for a string, so the guard never fires and a missing anchor reaches
`self._firmware.index(...)`, raising `ValueError` (crash).  A locator
failure returns `(None, None)` and the subsequent `get_string_table(None,
None)` indexes the image with `None` and raises `TypeError` (crash). -/
def flaAfter (fw : List Nat) (has : Bool) (symTab : List SymRec) (fuel : Nat) : LoadRes :=
  if has = false then .res none
  else
    match findSub fw keyBzero with
    | none => .crash
    | some ki =>
      match findStringTable fw symTab.length ki fuel with
      | .fuelOut => .fuelOut
      | .crash => .crash
      | .fail => .crash
      | .found s e =>
        match getStringTableRun fw s e with
        | .fuelOut => .fuelOut
        | .crash => .crash
        | .ok strTab => .res (findLoadAddressCore symTab strTab)

/-- Source `VxTarget.find_loading_address`: `prepare`, anchor lookup,
string-table location and decoding, then the correlation loop. -/
def findLoadingAddressRun (fw : List Nat) (ver : Nat) (endian : Option Nat) (fuel : Nat) : LoadRes :=
  match prepareRun fw ver endian with
  | .error _ => .crash
  | .ok st => flaAfter fw st.hasSymbol st.symTab fuel

/-- Spec-side acceptance predicate for the load-address resolver, as the
code actually behaves: all `count` index pairs of the run are in range and
the first `max(count - 1, 1)` length comparisons succeed, where
`count = min(symbolCount, 100)`. -/
def acceptPair (symTab : List SymRec) (strTab : List StrRec) (fi si : Nat) : Prop :=
  (∀ k, k < checkCount symTab.length → fi + k < symTab.length ∧ si + k < strTab.length) ∧
  (∀ k, k < max (checkCount symTab.length - 1) 1 → lengthMatchB symTab strTab (fi + k) (si + k) = true)

/-- Spec-side run predicate as the claim states it: the length sequences
match for a full run of `min(symbolCount, 100)` consecutive entries
starting at (fi, si). -/
def claimRunProp (symTab : List SymRec) (strTab : List StrRec) (fi si : Nat) : Prop :=
  ∀ k, k < checkCount symTab.length →
    fi + k < symTab.length ∧ si + k < strTab.length ∧
      lengthMatchB symTab strTab (fi + k) (si + k) = true

/-- Spec-side predicate for the known-address probe: the next printable run
begins exactly at offset `o` of the image. -/
def nextStartsAtB (fw : List Nat) (o : Nat) : Bool :=
  match getNextStringData fw o with
  | .ok (some (_, sa, _)) => sa == o
  | _ => false

/-- Spec-side contiguity check for decoded string records: the first record
starts at `a` and every further record starts where the previous one ends. -/
def chainFromB : Nat → List StrRec → Bool
  | _, [] => true
  | a, r :: rs => (r.address == a) && chainFromB (r.address + r.len) rs

/-- Spec-side shape check for the bytes of one decoded string record: a
run of non-null bytes followed by a non-empty run of null bytes (the
terminating null run is part of the record). -/
def nullSuffixShape (bs : List Nat) : Bool :=
  let rest := bs.dropWhile fun b => b ≠ 0
  !rest.isEmpty && rest.all fun b => b == 0

/-- Spec-side well-formedness of one decoded string record with respect to
the image. -/
def recOkB (fw : List Nat) (r : StrRec) : Bool :=
  decide (0 < r.len) && (r.bytes == sliceList fw r.address (r.address + r.len)) &&
    (r.len == r.bytes.length) && nullSuffixShape r.bytes

/-- Two-record symbol table for the resolver counterexample: derived name
length 5 then the underivable last record. -/
def symC1 : List SymRec := [⟨100, 0, 0, some 5⟩, ⟨105, 0, 16, none⟩]

/-- Two-record string table for the resolver counterexample: lengths 5, 7. -/
def strC1 : List StrRec := [⟨10, [97], 5⟩, ⟨15, [101], 7⟩]

/-- A well-formed 16-byte VxWorks 5 record sample. -/
def d5sample : List Nat := [0, 0, 0, 0, 1, 1, 1, 1, 2, 2, 2, 2, 0, 0, 5, 0]

/-- A 20-byte VxWorks 6 record sample whose destination-address field is
all zero (accepted for version 6 only). -/
def d6sample : List Nat := [0, 0, 0, 0, 1, 1, 1, 1, 0, 0, 0, 0, 0, 0, 0, 0, 0, 0, 3, 0]

lemma firstHit_eq_some {p : Nat → Bool} :
    ∀ n i j, firstHit p i n = some j ↔
      i ≤ j ∧ j < i + n ∧ p j = true ∧ ∀ k, i ≤ k → k < j → p k = false := by
  intro n
  induction n with
  | zero =>
    intro i j
    simp only [firstHit]
    constructor
    · intro h; exact Option.noConfusion h
    · rintro ⟨h1, h2, -⟩; omega
  | succ n ih =>
    intro i j
    simp only [firstHit]
    by_cases hp : p i
    · simp only [if_pos hp, Option.some.injEq]
      constructor
      · rintro rfl
        exact ⟨Nat.le_refl _, by omega, hp, fun k h1 h2 => absurd (Nat.lt_of_le_of_lt h1 h2) (Nat.lt_irrefl i)⟩
      · rintro ⟨h1, h2, h3, h4⟩
        by_contra hne
        have hlt : i < j := Nat.lt_of_le_of_ne h1 hne
        have := h4 i (Nat.le_refl i) hlt
        rw [hp] at this
        exact Bool.noConfusion this
    · rw [Bool.not_eq_true] at hp
      simp only [hp, Bool.false_eq_true, if_false]
      rw [ih (i + 1) j]
      constructor
      · rintro ⟨h1, h2, h3, h4⟩
        refine ⟨by omega, by omega, h3, fun k hk1 hk2 => ?_⟩
        rcases Nat.eq_or_lt_of_le hk1 with h | h
        · rw [← h]; exact hp
        · exact h4 k h hk2
      · rintro ⟨h1, h2, h3, h4⟩
        have hij : i ≠ j := by
          intro h; rw [← h] at h3; rw [h3] at hp; exact Bool.noConfusion hp
        exact ⟨by omega, by omega, h3, fun k hk1 hk2 => h4 k (by omega) hk2⟩

lemma firstHit_eq_none {p : Nat → Bool} :
    ∀ n i, firstHit p i n = none ↔ ∀ k, i ≤ k → k < i + n → p k = false := by
  intro n
  induction n with
  | zero =>
    intro i
    simp only [firstHit]
    constructor
    · intro _ k h1 h2; omega
    · intro _; trivial
  | succ n ih =>
    intro i
    simp only [firstHit]
    by_cases hp : p i
    · simp only [if_pos hp]
      constructor
      · intro h; exact Option.noConfusion h
      · intro h
        have := h i (Nat.le_refl i) (by omega)
        rw [hp] at this
        exact Bool.noConfusion this
    · rw [Bool.not_eq_true] at hp
      simp only [hp, Bool.false_eq_true, if_false]
      rw [ih (i + 1)]
      constructor
      · intro h k hk1 hk2
        rcases Nat.eq_or_lt_of_le hk1 with he | hlt
        · rw [← he]; exact hp
        · exact h k hlt (by omega)
      · intro h k hk1 hk2
        exact h k (by omega) (by omega)

/-- Claim C5: the FormatMatcher accepts a 16-byte V5 window iff bytes[0:4]
are all zero, bytes[4:8] are not all zero, bytes[8:12] are not all zero and
the trailing 4 bytes are one of the four fixed signatures; it accepts a
20-byte V6 window iff bytes[0:4] are all zero, bytes[4:8] are not all zero
and the trailing 8 bytes are one of the five fixed signatures, with no
requirement on bytes[8:12]. -/
theorem c5_format_matcher (d5 d6 : List Nat) (h5 : d5.length = 16) (h6 : d6.length = 20) :
    (checkSymbolFormatSimple 5 d5 = true ↔
      (d5.take 4 = [0, 0, 0, 0] ∧ sliceList d5 4 8 ≠ [0, 0, 0, 0] ∧
        sliceList d5 8 12 ≠ [0, 0, 0, 0] ∧ d5.drop 12 ∈ symbolFormatSign5)) ∧
    (checkSymbolFormatSimple 6 d6 = true ↔
      (d6.take 4 = [0, 0, 0, 0] ∧ sliceList d6 4 8 ≠ [0, 0, 0, 0] ∧
        d6.drop 12 ∈ symbolFormatSign6)) := by
  have e5 : lastN d5 4 = d5.drop 12 := by rw [lastN, h5]
  have e6 : lastN d6 8 = d6.drop 12 := by rw [lastN, h6]
  constructor
  · unfold checkSymbolFormatSimple
    rw [e5]
    split_ifs with h1 h2 h3 <;>
      simp_all [List.any_eq_true, beq_iff_eq, exists_eq_right']
  · unfold checkSymbolFormatSimple
    rw [e6]
    split_ifs with h1 h2 <;>
      simp_all [List.contains, List.elem_iff]

/-- Witness for C5 at two concrete record windows (the V6 window has an
all-zero destination-address field and is still accepted). -/
theorem c5_format_matcher_witness :
    d5sample.length = 16 ∧ d6sample.length = 20 ∧
    ((checkSymbolFormatSimple 5 d5sample = true ↔
      (d5sample.take 4 = [0, 0, 0, 0] ∧ sliceList d5sample 4 8 ≠ [0, 0, 0, 0] ∧
        sliceList d5sample 8 12 ≠ [0, 0, 0, 0] ∧ d5sample.drop 12 ∈ symbolFormatSign5)) ∧
    (checkSymbolFormatSimple 6 d6sample = true ↔
      (d6sample.take 4 = [0, 0, 0, 0] ∧ sliceList d6sample 4 8 ≠ [0, 0, 0, 0] ∧
        d6sample.drop 12 ∈ symbolFormatSign6))) :=
  ⟨by decide, by decide, c5_format_matcher d5sample d6sample (by decide) (by decide)⟩

lemma sliceList_take_two (fw : List Nat) (a intv : Nat) (h2 : 2 ≤ intv) :
    (sliceList fw a (a + intv)).take 2 = sliceList fw a (a + 2) := by
  unfold sliceList
  rw [List.take_take]
  congr 1
  omega

/-- Claim C6: for a confirmed table with at least two records, the endian
detector returns 1 (big endian) iff the 2-byte sub-fields at relative
offset 4 of records 0 and 1 coincide, and otherwise returns 2 (little
endian, which is also the fallback when the sub-fields at relative offset 6
differ as well). -/
theorem c6_endian_detector (fw : List Nat) (s intv : Nat) (h8 : 8 ≤ intv)
    (hlen : s + 2 * intv ≤ fw.length) :
    (checkVxworksEndian fw s intv = 1 ↔
      sliceList fw (s + 4) (s + 6) = sliceList fw (s + intv + 4) (s + intv + 6)) ∧
    (checkVxworksEndian fw s intv = 2 ↔
      sliceList fw (s + 4) (s + 6) ≠ sliceList fw (s + intv + 4) (s + intv + 6)) := by
  have ha : s + 4 + intv = s + intv + 4 := by omega
  have hb : s + 4 + 2 = s + 6 := by omega
  have hc : s + intv + 4 + 2 = s + intv + 6 := by omega
  have e1 : (sliceList fw (s + 4) (s + 4 + intv)).take 2 = sliceList fw (s + 4) (s + 6) := by
    rw [sliceList_take_two fw (s + 4) intv (by omega), hb]
  have e2 : (sliceList fw (s + 4 + intv) (s + 4 + 2 * intv)).take 2 =
      sliceList fw (s + intv + 4) (s + intv + 6) := by
    have hd : s + 4 + 2 * intv = (s + 4 + intv) + intv := by omega
    rw [hd, sliceList_take_two fw (s + 4 + intv) intv (by omega), ha, hc]
  dsimp only [checkVxworksEndian]
  rw [e1, e2]
  by_cases h : sliceList fw (s + 4) (s + 6) = sliceList fw (s + intv + 4) (s + intv + 6)
  · simp [h]
  · simp [h]

/-- Witness for C6 at a concrete 36-byte image whose two records share the
sub-field at relative offset 4. -/
theorem c6_endian_detector_witness :
    8 ≤ 16 ∧ 0 + 2 * 16 ≤ ([0, 0, 0, 0, 9, 9, 1, 1, 0, 0, 0, 0, 0, 0, 5, 0,
      0, 0, 0, 0, 9, 9, 2, 2, 0, 0, 0, 0, 0, 0, 5, 0, 0, 0, 0, 0] : List Nat).length ∧
    ((checkVxworksEndian [0, 0, 0, 0, 9, 9, 1, 1, 0, 0, 0, 0, 0, 0, 5, 0,
      0, 0, 0, 0, 9, 9, 2, 2, 0, 0, 0, 0, 0, 0, 5, 0, 0, 0, 0, 0] 0 16 = 1 ↔
      sliceList [0, 0, 0, 0, 9, 9, 1, 1, 0, 0, 0, 0, 0, 0, 5, 0,
        0, 0, 0, 0, 9, 9, 2, 2, 0, 0, 0, 0, 0, 0, 5, 0, 0, 0, 0, 0] (0 + 4) (0 + 6) =
      sliceList [0, 0, 0, 0, 9, 9, 1, 1, 0, 0, 0, 0, 0, 0, 5, 0,
        0, 0, 0, 0, 9, 9, 2, 2, 0, 0, 0, 0, 0, 0, 5, 0, 0, 0, 0, 0] (0 + 16 + 4) (0 + 16 + 6)) ∧
    (checkVxworksEndian [0, 0, 0, 0, 9, 9, 1, 1, 0, 0, 0, 0, 0, 0, 5, 0,
      0, 0, 0, 0, 9, 9, 2, 2, 0, 0, 0, 0, 0, 0, 5, 0, 0, 0, 0, 0] 0 16 = 2 ↔
      sliceList [0, 0, 0, 0, 9, 9, 1, 1, 0, 0, 0, 0, 0, 0, 5, 0,
        0, 0, 0, 0, 9, 9, 2, 2, 0, 0, 0, 0, 0, 0, 5, 0, 0, 0, 0, 0] (0 + 4) (0 + 6) ≠
      sliceList [0, 0, 0, 0, 9, 9, 1, 1, 0, 0, 0, 0, 0, 0, 5, 0,
        0, 0, 0, 0, 9, 9, 2, 2, 0, 0, 0, 0, 0, 0, 5, 0, 0, 0, 0, 0] (0 + 16 + 4) (0 + 16 + 6))) :=
  ⟨by decide, by decide,
    c6_endian_detector _ 0 16 (by decide) (by decide)⟩

/-- Claim C2 (code bug): for the 192-byte synthetic image consisting of
twelve well-formed VxWorks 5 records at offset 0, a matcher-positive run
exists at offset 0 (first conjunct) and the end scan from 0 would yield
table end 192 (second conjunct), yet `find_symbol_table` reports
`symbol_table_start = 0`, no table end and `_has_symbol = False` (third
conjunct), because `if self.symbol_table_start:` treats offset 0 as falsy. -/
theorem c2_offset_zero_bug :
    checkSymbolFormat c2img 5 0 = true ∧
    endScanGo c2img 5 0 none 12 = .ok (some 192) ∧
    findSymbolTableRun c2img 5 = .ok (some 0, none, false) :=
  ⟨by decide, rfl, rfl⟩

/-- Claim C7 (code bug): in the 193-byte image `c7img` the anchor bytes
`'\x00bzero\x00'` do not occur (first conjunct) although a symbol table is
found (second conjunct); `find_loading_address` then crashes with a
`ValueError` from `str.index` (third conjunct) instead of returning an
explicit not-found result, because the guard
`if key_word in self._firmware is False:` is a chained comparison that is
always false. -/
theorem c7_keyword_guard_crash :
    findSub c7img keyBzero = none ∧
    findSymbolTableRun c7img 5 = .ok (some 1, some 193, true) ∧
    findLoadingAddressRun c7img 5 none 100 = .crash :=
  ⟨by decide, rfl, rfl⟩

/-- Claim C10: the next-string scan indexes one byte past the end of the
image when a printable run reaches the final byte without a terminating
null: `_get_next_string_data` raises `IndexError` on the one-byte image
`[97]` (first conjunct); consequently the known-address probe faults on
`[0, 97]` for a candidate placing a symbol name at the unterminated tail
(second conjunct), and the string-table locator faults on the same image
(third conjunct), instead of returning a not-found result. -/
theorem c10_oob_scan :
    getNextStringData [97] 0 = .error () ∧
    checkLoadAddressRun [0, 97] [⟨2, 0, 0, none⟩] true 1 = .error () ∧
    findStringTable [0, 97] 1 0 10 = .crash :=
  ⟨rfl, rfl, rfl⟩

lemma claLoopGo_spec (fw : List Nat) (symTab : List SymRec) (address : Nat) :
    ∀ g i, claLoopGo fw symTab address i g = .ok true ↔
      ∀ k, k < g → 0 < offAt symTab address (i + k) ∧
        nextStartsAtB fw (offAt symTab address (i + k)).toNat = true := by
  intro g
  induction g with
  | zero =>
    intro i
    constructor
    · intro _ k hk; omega
    · intro _; rfl
  | succ g ih =>
    intro i
    dsimp only [claLoopGo]
    by_cases hoff : offAt symTab address i ≤ 0
    · simp only [if_pos hoff]
      constructor
      · intro h; exact absurd h (by simp)
      · intro h
        have h0 := (h 0 (by omega)).1
        rw [Nat.add_zero] at h0
        omega
    · simp only [if_neg hoff]
      push_neg at hoff
      cases hnext : getNextStringData fw (offAt symTab address i).toNat with
      | error u =>
        simp only [hnext]
        constructor
        · intro h; exact Except.noConfusion h
        · intro h
          have h0 := (h 0 (by omega)).2
          rw [Nat.add_zero] at h0
          rw [nextStartsAtB, hnext] at h0
          exact Bool.noConfusion h0
      | ok o =>
        cases o with
        | none =>
          simp only [hnext]
          constructor
          · intro h; exact absurd h (by simp)
          · intro h
            have h0 := (h 0 (by omega)).2
            rw [Nat.add_zero] at h0
            rw [nextStartsAtB, hnext] at h0
            exact Bool.noConfusion h0
        | some t =>
          obtain ⟨sdata, sa, ea⟩ := t
          simp only [hnext]
          by_cases hsa : sa = (offAt symTab address i).toNat
          · simp only [if_pos hsa]
            rw [ih (i + 1)]
            constructor
            · intro h k hk
              cases k with
              | zero =>
                refine ⟨by rw [Nat.add_zero]; exact hoff, ?_⟩
                rw [Nat.add_zero, nextStartsAtB, hnext]
                exact beq_iff_eq.2 hsa
              | succ k =>
                have hk2 := h k (by omega)
                have e : i + 1 + k = i + (k + 1) := by omega
                rw [e] at hk2
                exact hk2
            · intro h k hk
              have hk2 := h (k + 1) (by omega)
              have e : i + (k + 1) = i + 1 + k := by omega
              rw [e] at hk2
              exact hk2
          · simp only [if_neg hsa]
            constructor
            · intro h; exact absurd h (by simp)
            · intro h
              have h0 := (h 0 (by omega)).2
              rw [Nat.add_zero, nextStartsAtB, hnext] at h0
              exact absurd (beq_iff_eq.1 h0) hsa

lemma qtLoop_eq_some (fw : List Nat) (symTab : List SymRec) (has : Bool) :
    ∀ (l : List Nat) (a : Nat), qtLoop fw symTab has l = .ok (some a) ↔
      ∃ pre post, l = pre ++ a :: post ∧
        checkLoadAddressRun fw symTab has a = .ok true ∧
        ∀ x ∈ pre, checkLoadAddressRun fw symTab has x = .ok false := by
  intro l
  induction l with
  | nil =>
    intro a
    constructor
    · intro h; simp [qtLoop] at h
    · rintro ⟨pre, post, heq, -, -⟩
      exact absurd heq (by simp)
  | cons b rest ih =>
    intro a
    dsimp only [qtLoop]
    cases hc : checkLoadAddressRun fw symTab has b with
    | error u =>
      constructor
      · intro h; exact Except.noConfusion h
      · rintro ⟨pre, post, heq, hgood, hall⟩
        cases pre with
        | nil =>
          simp only [List.nil_append, List.cons.injEq] at heq
          rw [heq.1] at hc
          rw [hc] at hgood
          exact Except.noConfusion hgood
        | cons p ps =>
          simp only [List.cons_append, List.cons.injEq] at heq
          have := hall p (by simp)
          rw [← heq.1] at this
          rw [hc] at this
          exact Except.noConfusion this
    | ok bb =>
      cases bb with
      | true =>
        constructor
        · intro h
          simp only [Except.ok.injEq, Option.some.injEq] at h
          exact ⟨[], rest, by rw [h]; rfl, by rw [← h]; exact hc, by simp⟩
        · rintro ⟨pre, post, heq, hgood, hall⟩
          cases pre with
          | nil =>
            simp only [List.nil_append, List.cons.injEq] at heq
            rw [heq.1]
          | cons p ps =>
            simp only [List.cons_append, List.cons.injEq] at heq
            have := hall p (by simp)
            rw [← heq.1] at this
            rw [hc] at this
            simp at this
      | false =>
        rw [ih a]
        constructor
        · rintro ⟨pre, post, heq, hgood, hall⟩
          refine ⟨b :: pre, post, by rw [heq, List.cons_append], hgood, ?_⟩
          intro x hx
          rcases List.mem_cons.1 hx with rfl | hx2
          · exact hc
          · exact hall x hx2
        · rintro ⟨pre, post, heq, hgood, hall⟩
          cases pre with
          | nil =>
            simp only [List.nil_append, List.cons.injEq] at heq
            rw [heq.1] at hc
            rw [hc] at hgood
            simp at hgood
          | cons p ps =>
            simp only [List.cons_append, List.cons.injEq] at heq
            exact ⟨ps, post, heq.2, hgood, fun x hx => hall x (by simp [hx])⟩

lemma qtLoop_eq_none (fw : List Nat) (symTab : List SymRec) (has : Bool) :
    ∀ l : List Nat, qtLoop fw symTab has l = .ok none ↔
      ∀ x ∈ l, checkLoadAddressRun fw symTab has x = .ok false := by
  intro l
  induction l with
  | nil => simp [qtLoop]
  | cons b rest ih =>
    dsimp only [qtLoop]
    cases hc : checkLoadAddressRun fw symTab has b with
    | error u =>
      constructor
      · intro h; exact Except.noConfusion h
      · intro h
        have := h b (by simp)
        rw [hc] at this
        exact Except.noConfusion this
    | ok bb =>
      cases bb with
      | true =>
        constructor
        · intro h; simp at h
        · intro h
          have := h b (by simp)
          rw [hc] at this
          simp at this
      | false =>
        rw [ih]
        constructor
        · intro h x hx
          rcases List.mem_cons.1 hx with rfl | hx2
          · exact hc
          · exact h x hx2
        · intro h x hx
          exact h x (by simp [hx])

/-- Counterexample to claim C3 as stated: with image `[97, 0]`, a one-record
symbol table whose name address is 5, and candidate address 5, the offset is
0 (non-negative) and the next printable run begins exactly at offset 0, so
the claim (which asks only for a non-negative offset) accepts the candidate;
the probe nevertheless returns `False` because the code requires
`offset <= 0` to fail, i.e. a strictly positive offset. -/
theorem c3_counterexample :
    checkLoadAddressRun [97, 0] [⟨5, 0, 0, none⟩] true 5 = .ok false ∧
    (∀ k, k < checkCount ([⟨5, 0, 0, none⟩] : List SymRec).length →
      0 ≤ offAt [⟨5, 0, 0, none⟩] 5 k ∧
      nextStartsAtB [97, 0] (offAt [⟨5, 0, 0, none⟩] 5 k).toNat = true) :=
  ⟨rfl, by decide⟩

/-- Claim C3 (amended): the known-address probe accepts a candidate iff
there is a symbol table and, for each of the first `min(symbolCount, 100)`
records, `nameAddress - candidate` is a STRICTLY POSITIVE offset at which
the next printable run begins exactly; and the candidate loop of
`quick_test` returns the first candidate of the fixed known-address list
that passes (with `none` exactly when every candidate is rejected). -/
theorem c3_amended_probe :
    (∀ (fw : List Nat) (symTab : List SymRec) (has : Bool) (address : Nat),
      checkLoadAddressRun fw symTab has address = .ok true ↔
        (has = true ∧ ∀ k, k < checkCount symTab.length →
          0 < offAt symTab address k ∧
          nextStartsAtB fw (offAt symTab address k).toNat = true)) ∧
    (∀ (fw : List Nat) (symTab : List SymRec) (a : Nat),
      (qtLoop fw symTab true knownAddressList = .ok (some a) ↔
        ∃ pre post, knownAddressList = pre ++ a :: post ∧
          checkLoadAddressRun fw symTab true a = .ok true ∧
          ∀ x ∈ pre, checkLoadAddressRun fw symTab true x = .ok false) ∧
      (qtLoop fw symTab true knownAddressList = .ok none ↔
        ∀ x ∈ knownAddressList, checkLoadAddressRun fw symTab true x = .ok false)) := by
  constructor
  · intro fw symTab has address
    unfold checkLoadAddressRun
    cases has with
    | false =>
      simp only [if_pos rfl]
      constructor
      · intro h; simp at h
      · rintro ⟨h, -⟩; exact Bool.noConfusion h
    | true =>
      have hni : ¬ (true = false) := by simp
      rw [if_neg hni, claLoopGo_spec fw symTab address (checkCount symTab.length) 0]
      constructor
      · intro h
        refine ⟨rfl, fun k hk => ?_⟩
        have := h k hk
        rw [Nat.zero_add] at this
        exact this
      · rintro ⟨-, h⟩
        intro k hk
        rw [Nat.zero_add]
        exact h k hk
  · intro fw symTab a
    exact ⟨qtLoop_eq_some fw symTab true knownAddressList a, qtLoop_eq_none fw symTab true knownAddressList⟩

lemma lengthMatchB_lt {symTab : List SymRec} {strTab : List StrRec} {fi si : Nat}
    (h : lengthMatchB symTab strTab fi si = true) :
    fi < symTab.length ∧ si < strTab.length := by
  unfold lengthMatchB at h
  cases hg1 : symTab.get? fi with
  | none => rw [hg1] at h; exact Bool.noConfusion h
  | some sy =>
    cases hg2 : strTab.get? si with
    | none => rw [hg1, hg2] at h; exact Bool.noConfusion h
    | some st =>
      constructor
      · by_contra hc
        rw [List.get?_eq_none.2 (by omega)] at hg1
        exact Option.noConfusion hg1
      · by_contra hc
        rw [List.get?_eq_none.2 (by omega)] at hg2
        exact Option.noConfusion hg2

lemma acceptPair_lt {symTab : List SymRec} {strTab : List StrRec} {fi si : Nat}
    (h : acceptPair symTab strTab fi si) :
    fi < symTab.length ∧ si < strTab.length := by
  have hm0 := h.2 0 (by omega)
  rw [Nat.add_zero, Nat.add_zero] at hm0
  exact lengthMatchB_lt hm0

lemma checkFixGo_eq_some_true (symTab : List SymRec) (strTab : List StrRec) :
    ∀ steps fi si, checkFixGo symTab strTab steps fi si = some true ↔
      (0 < steps ∧ (∀ k, k < steps → fi + k < symTab.length ∧ si + k < strTab.length) ∧
        (∀ k, k + 1 < steps → lengthMatchB symTab strTab (fi + k) (si + k) = true)) := by
  intro steps
  induction steps with
  | zero =>
    intro fi si
    constructor
    · intro h; exact Option.noConfusion h
    · rintro ⟨h, -, -⟩; omega
  | succ steps ih =>
    intro fi si
    dsimp only [checkFixGo]
    by_cases hb : symTab.length ≤ fi ∨ strTab.length ≤ si
    · rw [if_pos hb]
      constructor
      · intro h; simp at h
      · rintro ⟨-, hbound, -⟩
        have h0 := hbound 0 (by omega)
        rw [Nat.add_zero, Nat.add_zero] at h0
        rcases hb with hb | hb <;> omega
    · rw [if_neg hb]
      push_neg at hb
      by_cases hs : steps = 0
      · subst hs
        rw [if_pos rfl]
        constructor
        · intro _
          refine ⟨by omega, ?_, ?_⟩
          · intro k hk
            have hk0 : k = 0 := by omega
            subst hk0
            rw [Nat.add_zero, Nat.add_zero]
            exact ⟨hb.1, hb.2⟩
          · intro k hk; omega
        · intro _; rfl
      · rw [if_neg hs]
        by_cases hm : lengthMatchB symTab strTab fi si = true
        · rw [if_pos hm, ih (fi + 1) (si + 1)]
          constructor
          · rintro ⟨hpos, hbound, hmatch⟩
            refine ⟨by omega, ?_, ?_⟩
            · intro k hk
              cases k with
              | zero =>
                rw [Nat.add_zero, Nat.add_zero]
                exact ⟨hb.1, hb.2⟩
              | succ k =>
                have hrec := hbound k (by omega)
                constructor <;> omega
            · intro k hk
              cases k with
              | zero =>
                rw [Nat.add_zero, Nat.add_zero]
                exact hm
              | succ k =>
                have hrec := hmatch k (by omega)
                rw [show fi + (k + 1) = fi + 1 + k from by omega,
                  show si + (k + 1) = si + 1 + k from by omega]
                exact hrec
          · rintro ⟨hpos, hbound, hmatch⟩
            refine ⟨by omega, ?_, ?_⟩
            · intro k hk
              have hrec := hbound (k + 1) (by omega)
              constructor <;> omega
            · intro k hk
              have hrec := hmatch (k + 1) (by omega)
              rw [show fi + 1 + k = fi + (k + 1) from by omega,
                show si + 1 + k = si + (k + 1) from by omega]
              exact hrec
        · rw [if_neg hm]
          constructor
          · intro h; simp at h
          · rintro ⟨-, -, hmatch⟩
            have h0 := hmatch 0 (by omega)
            rw [Nat.add_zero, Nat.add_zero] at h0
            exact absurd h0 hm

lemma goodPairB_iff (symTab : List SymRec) (strTab : List StrRec) (fi si : Nat) :
    goodPairB symTab strTab fi si = true ↔ acceptPair symTab strTab fi si := by
  unfold goodPairB checkFix
  rw [Bool.and_eq_true, decide_eq_true_eq,
    checkFixGo_eq_some_true symTab strTab (checkCount symTab.length) fi si]
  unfold acceptPair
  constructor
  · rintro ⟨hm0, -, hbound, hmatch⟩
    refine ⟨hbound, ?_⟩
    intro k hk
    by_cases hk2 : k + 1 < checkCount symTab.length
    · exact hmatch k hk2
    · have hk0 : k = 0 := by omega
      subst hk0
      rw [Nat.add_zero, Nat.add_zero]
      exact hm0
  · rintro ⟨hbound, hmatch⟩
    have hm0 := hmatch 0 (by omega)
    rw [Nat.add_zero, Nat.add_zero] at hm0
    have hfi := (lengthMatchB_lt hm0).1
    have hpos : 0 < checkCount symTab.length := by
      unfold checkCount
      split <;> omega
    refine ⟨hm0, hpos, hbound, ?_⟩
    intro k hk
    exact hmatch k (by omega)

/-- Counterexample to claim C1 as stated: on a two-record symbol table with
derived name lengths `[5, None]` and a string table with lengths `[5, 7]`,
no index pair has matching length sequences for a full run of
`min(symbolCount, 100) = 2` consecutive entries, yet the resolver returns
the load address 90 (it verifies only `count - 1` comparisons: `_check_fix`
returns `True` on the last iteration before comparing). -/
theorem c1_counterexample :
    findLoadAddressCore symC1 strC1 = some 90 ∧
    ¬ ∃ fi si, claimRunProp symC1 strC1 fi si := by
  constructor
  · rfl
  · rintro ⟨fi, si, h⟩
    obtain ⟨hf, hs, hm⟩ := h 1 (by decide)
    have hfi : fi = 0 := by
      have h2 : fi + 1 < 2 := hf
      omega
    have hsi : si = 0 := by
      have h2 : si + 1 < 2 := hs
      omega
    subst hfi
    subst hsi
    exact absurd hm (by decide)

lemma findLoadAddressCore_eq (symTab : List SymRec) (strTab : List StrRec) :
    findLoadAddressCore symTab strTab =
      (firstHit (fun fi => (firstHit (goodPairB symTab strTab fi) 0 strTab.length).isSome)
          0 symTab.length).bind
        (fun fi => (firstHit (goodPairB symTab strTab fi) 0 strTab.length).map
          (loadAddrAt symTab strTab fi)) := by
  unfold findLoadAddressCore
  cases firstHit (fun fi => (firstHit (goodPairB symTab strTab fi) 0 strTab.length).isSome)
      0 symTab.length with
  | none => rfl
  | some fi =>
    show (match firstHit (goodPairB symTab strTab fi) 0 strTab.length with
      | none => (none : Option Int)
      | some si => some (loadAddrAt symTab strTab fi si)) =
      Option.map (loadAddrAt symTab strTab fi) (firstHit (goodPairB symTab strTab fi) 0 strTab.length)
    cases firstHit (goodPairB symTab strTab fi) 0 strTab.length with
    | none => rfl
    | some si => rfl

/-- Claim C1 (amended): the resolver returns a load address iff some index
pair (fi, si) satisfies the acceptance condition actually checked by the
code, namely that all `count = min(symbolCount, 100)` index pairs of the
run are in range and the length sequences match for the first
`max(count - 1, 1)` entries of the run (one comparison fewer than the
claimed `count`); the first such pair in symbolIndex-major,
stringIndex-minor order is selected, the result is
`nameAddress - stringAddress` for that pair, and `none` is returned when no
pair is accepted. -/
theorem c1_amended_first_pair (symTab : List SymRec) (strTab : List StrRec) (a : Int) :
    findLoadAddressCore symTab strTab = some a ↔
      ∃ fi si, acceptPair symTab strTab fi si ∧ a = loadAddrAt symTab strTab fi si ∧
        (∀ fi2, fi2 < fi → ∀ si2, ¬ acceptPair symTab strTab fi2 si2) ∧
        (∀ si2, si2 < si → ¬ acceptPair symTab strTab fi si2) := by
  rw [findLoadAddressCore_eq]
  cases houter : firstHit
      (fun fi => (firstHit (goodPairB symTab strTab fi) 0 strTab.length).isSome)
      0 symTab.length with
  | none =>
    rw [firstHit_eq_none] at houter
    simp only [Option.none_bind]
    constructor
    · intro h; exact Option.noConfusion h
    · rintro ⟨fi, si, hacc, -, -, -⟩
      have hlt := acceptPair_lt hacc
      have hfalse := houter fi (by omega) (by omega)
      simp only at hfalse
      cases hin : firstHit (goodPairB symTab strTab fi) 0 strTab.length with
      | some v => rw [hin] at hfalse; simp at hfalse
      | none =>
        rw [firstHit_eq_none] at hin
        have hg := hin si (by omega) (by omega)
        rw [(goodPairB_iff symTab strTab fi si).2 hacc] at hg
        exact Bool.noConfusion hg
  | some fi0 =>
    rw [firstHit_eq_some] at houter
    obtain ⟨-, hfi0S, hp0, hmin0⟩ := houter
    simp only [Option.some_bind]
    cases hsi : firstHit (goodPairB symTab strTab fi0) 0 strTab.length with
    | none => rw [hsi] at hp0; simp at hp0
    | some si0 =>
      have hsi2 := hsi
      rw [firstHit_eq_some] at hsi2
      obtain ⟨-, hsi0T, hgood0, hmins0⟩ := hsi2
      simp only [Option.map_some', Option.some_inj]
      constructor
      · intro heq
        refine ⟨fi0, si0, (goodPairB_iff _ _ _ _).1 hgood0, heq.symm, ?_, ?_⟩
        · intro fi2 hfi2 si2 hacc2
          have hlt2 := acceptPair_lt hacc2
          have hfalse := hmin0 fi2 (by omega) hfi2
          simp only at hfalse
          cases hin2 : firstHit (goodPairB symTab strTab fi2) 0 strTab.length with
          | some v => rw [hin2] at hfalse; simp at hfalse
          | none =>
            rw [firstHit_eq_none] at hin2
            have hg := hin2 si2 (by omega) (by omega)
            rw [(goodPairB_iff _ _ _ _).2 hacc2] at hg
            exact Bool.noConfusion hg
        · intro si2 hsi2lt hacc2
          have hg := hmins0 si2 (by omega) hsi2lt
          rw [(goodPairB_iff _ _ _ _).2 hacc2] at hg
          exact Bool.noConfusion hg
      · rintro ⟨fi, si, hacc, ha, hminf, hmins⟩
        have hgood : goodPairB symTab strTab fi si = true := (goodPairB_iff _ _ _ _).2 hacc
        have hlt := acceptPair_lt hacc
        have hfi_eq : fi = fi0 := by
          rcases Nat.lt_trichotomy fi fi0 with h | h | h
          · have hfalse := hmin0 fi (by omega) h
            simp only at hfalse
            cases hin2 : firstHit (goodPairB symTab strTab fi) 0 strTab.length with
            | some v => rw [hin2] at hfalse; simp at hfalse
            | none =>
              rw [firstHit_eq_none] at hin2
              have hg := hin2 si (by omega) (by omega)
              rw [hgood] at hg
              exact Bool.noConfusion hg
          · exact h
          · exact (hminf fi0 h si0 ((goodPairB_iff _ _ _ _).1 hgood0)).elim
        subst hfi_eq
        have hsi_eq : si = si0 := by
          rcases Nat.lt_trichotomy si si0 with h | h | h
          · have hg := hmins0 si (by omega) h
            rw [hgood] at hg
            exact Bool.noConfusion hg
          · exact h
          · exact (hmins si0 h ((goodPairB_iff _ _ _ _).1 hgood0)).elim
        subst hsi_eq
        exact ha.symm

/-- Counterexample to claim C4 as stated: locating from key offset 0 in the
image `[0, '%', 0, 'a', 'b', 0, 'c', 0, 0, '%', 0]` with a two-record symbol
table, the forward scan immediately meets the string `"%"` (offsets 1..2),
which fails the function-name predicate while zero names are accumulated
(second and third conjuncts); the claim says the whole locate operation must
then fail, but the locator instead discards the accumulated list, continues,
and returns the table (3, 7) (first conjunct). -/
theorem c4_counterexample :
    findStringTable [0, 37, 0, 97, 98, 0, 99, 0, 0, 37, 0] 2 0 30 = .found 3 7 ∧
    checkIsFuncName [37] = false ∧
    getNextStringData [0, 37, 0, 97, 98, 0, 99, 0, 0, 37, 0] 1 = .ok (some ([37], 1, 2)) :=
  ⟨rfl, rfl, rfl⟩

/-- Claim C4 (amended): in the backward direction, a failed name predicate
or a gap above 4 bytes fails the whole locate operation when fewer than
`count = min(symbolCount, 100)` names are accumulated, and otherwise stops
the direction accepting the boundary.  In the forward direction the gap
rule is as claimed, but a failed name predicate with fewer than `count`
accumulated names does NOT fail the operation: it discards every
accumulated name and continues scanning after the offending string. -/
theorem c4_amended_steps :
    (∀ (fw : List Nat) (count : Nat) (temp : List (List Nat × Nat × Nat)) (so b : Nat)
        (s : List Nat) (sa ea : Nat),
      so ≠ 0 → fw.get? so = some b → isPrintableByte b = true →
      getPrevStringData fw so = .ok (some (s, sa, ea)) → checkIsFuncName s = false →
      temp.length < count → backwardStep fw count temp so = .fail) ∧
    (∀ (fw : List Nat) (count : Nat) (temp : List (List Nat × Nat × Nat)) (so b : Nat)
        (s : List Nat) (sa ea : Nat),
      so ≠ 0 → fw.get? so = some b → isPrintableByte b = true →
      getPrevStringData fw so = .ok (some (s, sa, ea)) → checkIsFuncName s = false →
      count ≤ temp.length → backwardStep fw count temp so = .done temp) ∧
    (∀ (fw : List Nat) (count : Nat) (temp : List (List Nat × Nat × Nat)) (so b : Nat)
        (s : List Nat) (sa ea : Nat) (ps : List Nat) (psa pea : Nat),
      so ≠ 0 → fw.get? so = some b → isPrintableByte b = true →
      getPrevStringData fw so = .ok (some (s, sa, ea)) → checkIsFuncName s = true →
      getPrevStringData fw (sa - 1) = .ok (some (ps, psa, pea)) → psa ≠ 0 →
      4 < (sa : Int) - (pea : Int) → temp.length + 1 < count →
      backwardStep fw count temp so = .fail) ∧
    (∀ (fw : List Nat) (count : Nat) (temp : List (List Nat × Nat × Nat)) (so b : Nat)
        (s : List Nat) (sa ea : Nat) (ps : List Nat) (psa pea : Nat),
      so ≠ 0 → fw.get? so = some b → isPrintableByte b = true →
      getPrevStringData fw so = .ok (some (s, sa, ea)) → checkIsFuncName s = true →
      getPrevStringData fw (sa - 1) = .ok (some (ps, psa, pea)) → psa ≠ 0 →
      4 < (sa : Int) - (pea : Int) → count ≤ temp.length + 1 →
      backwardStep fw count temp so = .done (temp ++ [(s, sa, ea)])) ∧
    (∀ (fw : List Nat) (count : Nat) (temp : List (List Nat × Nat × Nat)) (eo b : Nat)
        (s : List Nat) (sa ea : Nat),
      eo < fw.length → fw.get? eo = some b → isPrintableByte b = true →
      getNextStringData fw eo = .ok (some (s, sa, ea)) → checkIsFuncName s = false →
      temp.length < count → forwardStep fw count temp eo = .cont [] ea) ∧
    (∀ (fw : List Nat) (count : Nat) (temp : List (List Nat × Nat × Nat)) (eo b : Nat)
        (s : List Nat) (sa ea : Nat),
      eo < fw.length → fw.get? eo = some b → isPrintableByte b = true →
      getNextStringData fw eo = .ok (some (s, sa, ea)) → checkIsFuncName s = false →
      count ≤ temp.length → forwardStep fw count temp eo = .done temp) ∧
    (∀ (fw : List Nat) (count : Nat) (temp : List (List Nat × Nat × Nat)) (eo b : Nat)
        (s : List Nat) (sa ea : Nat) (ns : List Nat) (nsa nea : Nat),
      eo < fw.length → fw.get? eo = some b → isPrintableByte b = true →
      getNextStringData fw eo = .ok (some (s, sa, ea)) → checkIsFuncName s = true →
      getNextStringData fw ea = .ok (some (ns, nsa, nea)) → nsa ≠ 0 →
      4 < (nsa : Int) - (ea : Int) → temp.length + 1 < count →
      forwardStep fw count temp eo = .fail) ∧
    (∀ (fw : List Nat) (count : Nat) (temp : List (List Nat × Nat × Nat)) (eo b : Nat)
        (s : List Nat) (sa ea : Nat) (ns : List Nat) (nsa nea : Nat),
      eo < fw.length → fw.get? eo = some b → isPrintableByte b = true →
      getNextStringData fw eo = .ok (some (s, sa, ea)) → checkIsFuncName s = true →
      getNextStringData fw ea = .ok (some (ns, nsa, nea)) → nsa ≠ 0 →
      4 < (nsa : Int) - (ea : Int) → count ≤ temp.length + 1 →
      forwardStep fw count temp eo = .done (temp ++ [(s, sa, ea)])) := by
  refine ⟨?_, ?_, ?_, ?_, ?_, ?_, ?_, ?_⟩
  · intro fw count temp so b s sa ea hso hget hprint hprev hname hlen
    unfold backwardStep
    rw [if_neg hso, hget]
    simp only [hprint, hprev, hname, if_pos hlen]
    rfl
  · intro fw count temp so b s sa ea hso hget hprint hprev hname hlen
    unfold backwardStep
    rw [if_neg hso, hget]
    simp only [hprint, hprev, hname, if_neg (by omega : ¬ (temp.length < count))]
    rfl
  · intro fw count temp so b s sa ea ps psa pea hso hget hprint hprev hname hprev2 hpsa hgap hlen
    have hl2 : (temp ++ [(s, sa, ea)]).length < count := by
      simp only [List.length_append, List.length_cons, List.length_nil]
      omega
    unfold backwardStep
    rw [if_neg hso, hget]
    simp only [hprint, hprev, hname, hprev2, if_pos hpsa, if_pos hgap, if_pos hl2]
    rfl
  · intro fw count temp so b s sa ea ps psa pea hso hget hprint hprev hname hprev2 hpsa hgap hlen
    have hl2 : ¬ ((temp ++ [(s, sa, ea)]).length < count) := by
      simp only [List.length_append, List.length_cons, List.length_nil]
      omega
    unfold backwardStep
    rw [if_neg hso, hget]
    simp only [hprint, hprev, hname, hprev2, if_pos hpsa, if_pos hgap, if_neg hl2]
    rfl
  · intro fw count temp eo b s sa ea heo hget hprint hnext hname hlen
    unfold forwardStep
    rw [if_neg (by omega : ¬ (fw.length ≤ eo)), hget]
    simp only [hprint, hnext, hname, if_pos hlen]
    rfl
  · intro fw count temp eo b s sa ea heo hget hprint hnext hname hlen
    unfold forwardStep
    rw [if_neg (by omega : ¬ (fw.length ≤ eo)), hget]
    simp only [hprint, hnext, hname, if_neg (by omega : ¬ (temp.length < count))]
    rfl
  · intro fw count temp eo b s sa ea ns nsa nea heo hget hprint hnext hname hnext2 hnsa hgap hlen
    have hl2 : (temp ++ [(s, sa, ea)]).length < count := by
      simp only [List.length_append, List.length_cons, List.length_nil]
      omega
    unfold forwardStep
    rw [if_neg (by omega : ¬ (fw.length ≤ eo)), hget]
    simp only [hprint, hnext, hname, hnext2, if_pos hnsa, if_pos hgap, if_pos hl2]
    rfl
  · intro fw count temp eo b s sa ea ns nsa nea heo hget hprint hnext hname hnext2 hnsa hgap hlen
    have hl2 : ¬ ((temp ++ [(s, sa, ea)]).length < count) := by
      simp only [List.length_append, List.length_cons, List.length_nil]
      omega
    unfold forwardStep
    rw [if_neg (by omega : ¬ (fw.length ≤ eo)), hget]
    simp only [hprint, hnext, hname, hnext2, if_pos hnsa, if_pos hgap, if_neg hl2]
    rfl

/-- Witness for C4 instantiating every case of `c4_amended_steps` at
concrete scan states. -/
theorem c4_amended_steps_witness :
    backwardStep [0, 37, 0] 2 [] 1 = .fail ∧
    backwardStep [0, 37, 0] 0 [] 1 = .done [] ∧
    backwardStep [0, 97, 0, 0, 0, 0, 0, 98, 0] 2 [] 7 = .fail ∧
    backwardStep [0, 97, 0, 0, 0, 0, 0, 98, 0] 1 [] 7 = .done [([98], 7, 8)] ∧
    forwardStep [0, 37, 0] 2 [] 1 = .cont [] 2 ∧
    forwardStep [0, 37, 0] 0 [] 1 = .done [] ∧
    forwardStep [0, 97, 0, 0, 0, 0, 0, 98, 0] 2 [] 1 = .fail ∧
    forwardStep [0, 97, 0, 0, 0, 0, 0, 98, 0] 1 [] 1 = .done [([97], 1, 2)] :=
  ⟨c4_amended_steps.1 [0, 37, 0] 2 [] 1 37 [37] 1 2
      (by decide) rfl (by decide) rfl rfl (by decide),
    c4_amended_steps.2.1 [0, 37, 0] 0 [] 1 37 [37] 1 2
      (by decide) rfl (by decide) rfl rfl (by decide),
    c4_amended_steps.2.2.1 [0, 97, 0, 0, 0, 0, 0, 98, 0] 2 [] 7 98 [98] 7 8 [97] 1 2
      (by decide) rfl (by decide) rfl rfl rfl (by decide) (by decide) (by decide),
    c4_amended_steps.2.2.2.1 [0, 97, 0, 0, 0, 0, 0, 98, 0] 1 [] 7 98 [98] 7 8 [97] 1 2
      (by decide) rfl (by decide) rfl rfl rfl (by decide) (by decide) (by decide),
    c4_amended_steps.2.2.2.2.1 [0, 37, 0] 2 [] 1 37 [37] 1 2
      (by decide) rfl (by decide) rfl rfl (by decide),
    c4_amended_steps.2.2.2.2.2.1 [0, 37, 0] 0 [] 1 37 [37] 1 2
      (by decide) rfl (by decide) rfl rfl (by decide),
    c4_amended_steps.2.2.2.2.2.2.1 [0, 97, 0, 0, 0, 0, 0, 98, 0] 2 [] 1 97 [97] 1 2 [98] 7 8
      (by decide) rfl (by decide) rfl rfl rfl (by decide) (by decide) (by decide),
    c4_amended_steps.2.2.2.2.2.2.2 [0, 97, 0, 0, 0, 0, 0, 98, 0] 1 [] 1 97 [97] 1 2 [98] 7 8
      (by decide) rfl (by decide) rfl rfl rfl (by decide) (by decide) (by decide)⟩

lemma sliceList_length (fw : List Nat) (a b : Nat) :
    (sliceList fw a b).length = min (b - a) (fw.length - a) := by
  simp [sliceList]

lemma sliceList_append (fw : List Nat) (a m b : Nat) (h1 : a ≤ m) (h2 : m ≤ b) :
    sliceList fw a b = sliceList fw a m ++ sliceList fw m b := by
  unfold sliceList
  rw [show b - a = (m - a) + (b - m) from by omega, List.take_add]
  congr 1
  rw [List.drop_drop, show a + (m - a) = m from by omega]

lemma mem_sliceList {fw : List Nat} {a b x : Nat} (h : x ∈ sliceList fw a b) :
    ∃ j, a ≤ j ∧ j < b ∧ fw.get? j = some x := by
  unfold sliceList at h
  obtain ⟨i, hi⟩ := List.mem_iff_get?.1 h
  have hilt : i < b - a := by
    by_contra hc
    rw [List.get?_eq_none.2 (by simp [List.length_take, List.length_drop]; omega)] at hi
    exact Option.noConfusion hi
  rw [List.get?_take hilt, List.get?_drop] at hi
  exact ⟨a + i, by omega, by omega, hi⟩

lemma nullSuffixShape_append :
    ∀ xs ys : List Nat, (∀ x ∈ xs, x ≠ 0) → (∀ y ∈ ys, y = 0) → ys ≠ [] →
      nullSuffixShape (xs ++ ys) = true := by
  intro xs
  induction xs with
  | nil =>
    intro ys hxs hys hne
    cases ys with
    | nil => exact absurd rfl hne
    | cons y ys2 =>
      have hy := hys y (by simp)
      subst hy
      unfold nullSuffixShape
      rw [List.nil_append, List.dropWhile_cons, if_neg (by decide)]
      simp only [List.isEmpty_cons, Bool.not_false, Bool.true_and, List.all_eq_true]
      intro z hz2
      rcases List.mem_cons.1 hz2 with rfl | hmem
      · exact beq_self_eq_true 0
      · exact beq_iff_eq.2 (hys z (by simp [hmem]))
  | cons x xs2 ih =>
    intro ys hxs hys hne
    have hx := hxs x (by simp)
    unfold nullSuffixShape
    rw [List.cons_append, List.dropWhile_cons]
    rw [if_pos (decide_eq_true hx)]
    exact ih ys (fun z hz => hxs z (by simp [hz])) hys hne

lemma gstInnerGo_spec (fw : List Nat) :
    ∀ g offset nxt, gstInnerGo fw offset g = .ok (some nxt) →
      offset < nxt ∧ (∀ j, offset < j → j < nxt → fw.get? j = some 0) ∧
      (∃ b, fw.get? nxt = some b ∧ b ≠ 0) := by
  intro g
  induction g with
  | zero =>
    intro offset nxt h
    simp [gstInnerGo] at h
  | succ g ih =>
    intro offset nxt h
    dsimp only [gstInnerGo] at h
    cases hget : fw.get? (offset + 1) with
    | none => rw [hget] at h; exact Except.noConfusion h
    | some b =>
      rw [hget] at h
      dsimp only at h
      by_cases hb : b ≠ 0
      · rw [if_pos hb] at h
        simp only [Except.ok.injEq, Option.some.injEq] at h
        subst h
        exact ⟨by omega, fun j hj1 hj2 => absurd (by omega : offset + 1 < offset + 1) (by omega),
          ⟨b, hget, hb⟩⟩
      · rw [if_neg hb] at h
        push_neg at hb
        obtain ⟨hlt, hnull, hb2⟩ := ih (offset + 1) nxt h
        refine ⟨by omega, fun j hj1 hj2 => ?_, hb2⟩
        rcases Nat.eq_or_lt_of_le hj1 with he | hlt2
        · have hj : j = offset + 1 := by omega
          rw [hj, hget, hb]
        · exact hnull j hlt2 hj2

lemma gstGo_spec (fw : List Nat) (endA : Nat) :
    ∀ f offset address acc recs,
      address ≤ offset →
      (∀ j, address ≤ j → j < offset → ∃ b, fw.get? j = some b ∧ b ≠ 0) →
      gstGo fw endA offset address acc f = .ok recs →
      ∃ suf, recs = acc ++ suf ∧ chainFromB address suf = true ∧
        suf.all (recOkB fw) = true := by
  intro f
  induction f with
  | zero =>
    intro offset address acc recs hao hrun h
    exact GstRes.noConfusion h
  | succ f ih =>
    intro offset address acc recs hao hrun h
    dsimp only [gstGo] at h
    by_cases hle : offset ≤ endA
    · rw [if_pos hle] at h
      cases hget : fw.get? offset with
      | none => rw [hget] at h; exact GstRes.noConfusion h
      | some b =>
        rw [hget] at h
        dsimp only at h
        by_cases hb : b = 0
        · rw [if_pos hb] at h
          cases hin : gstInnerGo fw offset (endA + 1 - offset) with
          | error u => rw [hin] at h; exact GstRes.noConfusion h
          | ok o =>
            cases o with
            | none =>
              rw [hin] at h
              simp only [GstRes.ok.injEq] at h
              exact ⟨[], by rw [← h, List.append_nil], rfl, rfl⟩
            | some nxt =>
              rw [hin] at h
              obtain ⟨hlt, hnulls, b2, hgetn, hb2⟩ := gstInnerGo_spec fw _ offset nxt hin
              have hnextlen : nxt < fw.length := by
                by_contra hc
                rw [List.get?_eq_none.2 (by omega)] at hgetn
                exact Option.noConfusion hgetn
              obtain ⟨suf, hrecs, hchain, hall⟩ :=
                ih nxt nxt (acc ++ [⟨address, sliceList fw address nxt, nxt - address⟩]) recs
                  (Nat.le_refl nxt) (fun j hj1 hj2 => absurd (by omega : j < j) (by omega)) h
              refine ⟨⟨address, sliceList fw address nxt, nxt - address⟩ :: suf, ?_, ?_, ?_⟩
              · rw [hrecs, List.append_assoc, List.singleton_append]
              · dsimp only [chainFromB]
                simp only [beq_self_eq_true, Bool.true_and]
                rw [show address + (nxt - address) = nxt from by omega]
                exact hchain
              · rw [List.all_cons, hall, Bool.and_true]
                -- recOkB for the new record
                unfold recOkB
                simp only [Bool.and_eq_true, decide_eq_true_eq, beq_iff_eq]
                have hsll : (sliceList fw address nxt).length = nxt - address := by
                  rw [sliceList_length]
                  omega
                refine ⟨⟨⟨by omega, ?_⟩, ?_⟩, ?_⟩
                · rw [show address + (nxt - address) = nxt from by omega]
                · rw [hsll]
                · -- null suffix shape
                  rw [sliceList_append fw address offset nxt hao (by omega)]
                  apply nullSuffixShape_append
                  · intro x hx
                    obtain ⟨j, hj1, hj2, hjget⟩ := mem_sliceList hx
                    obtain ⟨b3, hb3, hb3ne⟩ := hrun j hj1 hj2
                    rw [hjget] at hb3
                    rw [← Option.some_inj.1 hb3] at hb3ne
                    exact hb3ne
                  · intro y hy
                    obtain ⟨j, hj1, hj2, hjget⟩ := mem_sliceList hy
                    rcases Nat.eq_or_lt_of_le hj1 with he | hlt2
                    · rw [← he, hget] at hjget
                      rw [hb] at hjget
                      exact (Option.some_inj.1 hjget).symm
                    · rw [hnulls j hlt2 hj2] at hjget
                      exact (Option.some_inj.1 hjget).symm
                  · intro hemp
                    have := congrArg List.length hemp
                    rw [sliceList_length] at this
                    simp only [List.length_nil] at this
                    have hofflen : offset < fw.length := by
                      by_contra hc
                      rw [List.get?_eq_none.2 (by omega)] at hget
                      exact Option.noConfusion hget
                    omega
        · rw [if_neg hb] at h
          obtain ⟨suf, hrecs, hchain, hall⟩ :=
            ih (offset + 1) address acc recs (by omega)
              (fun j hj1 hj2 => by
                rcases Nat.lt_or_ge j offset with hlt2 | hge
                · exact hrun j hj1 hlt2
                · have hje : j = offset := by omega
                  rw [hje, hget]
                  exact ⟨b, rfl, hb⟩) h
          exact ⟨suf, hrecs, hchain, hall⟩
    · rw [if_neg hle] at h
      simp only [GstRes.ok.injEq] at h
      exact ⟨[], by rw [← h, List.append_nil], rfl, rfl⟩

/-- Counterexample to claim C8 as stated: decoding the range [0, 4] of the
image `['a', 0, 0, 'b', 0, 'c']` yields a record at address 0 of length 3
whose byte range contains the null byte at position 1 (first three
conjuncts), contradicting the claimed no-embedded-null invariant (lengths
include the terminating null run); and decoding the range [0, 2] of
`['a', 0, 0, 0, 0, 0]` yields no records at all (fourth conjunct), so not
every byte of the range is accounted for. -/
theorem c8_counterexample :
    getStringTableRun [97, 0, 0, 98, 0, 99] 0 4 =
      .ok [⟨0, [97, 0, 0], 3⟩, ⟨3, [98, 0], 2⟩] ∧
    ([97, 0, 0, 98, 0, 99] : List Nat).get? (0 + 1) = some 0 ∧ (1 : Nat) < 3 ∧
    getStringTableRun [97, 0, 0, 0, 0, 0] 0 2 = .ok [] :=
  ⟨rfl, rfl, by decide, rfl⟩

/-- Claim C8 (amended): every record produced by the string-table decoder
consists of a run of non-null bytes followed by a non-empty run of null
bytes (the terminating null run is inside the record, so the range does
contain nulls), its bytes are exactly the image slice of its range with
length matching; the records are contiguous, the first starting at
tableStart and each next one starting where the previous ends.  Bytes after
the last produced record (an unterminated trailing segment) may remain
unaccounted for. -/
theorem c8_amended_structure (fw : List Nat) (s e : Nat) (recs : List StrRec)
    (h : getStringTableRun fw s e = .ok recs) :
    chainFromB s recs = true ∧ recs.all (recOkB fw) = true := by
  unfold getStringTableRun at h
  obtain ⟨suf, hrecs, hchain, hall⟩ :=
    gstGo_spec fw e (e + 2) s s [] recs (Nat.le_refl s)
      (fun j hj1 hj2 => absurd (by omega : j < j) (by omega)) h
  rw [List.nil_append] at hrecs
  subst hrecs
  exact ⟨hchain, hall⟩

/-- Witness for C8 applying `c8_amended_structure` to a concrete decode. -/
theorem c8_amended_structure_witness :
    getStringTableRun [97, 0, 0, 98, 0, 99] 0 4 =
      .ok [⟨0, [97, 0, 0], 3⟩, ⟨3, [98, 0], 2⟩] ∧
    (chainFromB 0 [⟨0, [97, 0, 0], 3⟩, ⟨3, [98, 0], 2⟩] = true ∧
      ([⟨0, [97, 0, 0], 3⟩, ⟨3, [98, 0], 2⟩] : List StrRec).all
        (recOkB [97, 0, 0, 98, 0, 99]) = true) :=
  ⟨rfl, c8_amended_structure [97, 0, 0, 98, 0, 99] 0 4 _ rfl⟩

lemma prepareRun_proj (fw : List Nat) (ver : Nat) (e1 e2 : Option Nat) :
    (prepareRun fw ver e1).map (fun st => (st.hasSymbol, st.symTab)) =
      (prepareRun fw ver e2).map (fun st => (st.hasSymbol, st.symTab)) := by
  unfold prepareRun
  cases findSymbolTableRun fw ver with
  | error u => rfl
  | ok t =>
    obtain ⟨ts, te, has⟩ := t
    dsimp only
    by_cases hhas : has = false
    · simp only [if_pos hhas]
      rfl
    · simp only [if_neg hhas]
      unfold getSymbolTableRun
      cases ts with
      | none => rfl
      | some sv =>
        cases te with
        | none => rfl
        | some ev =>
          dsimp only
          by_cases htr : sv ≠ 0 ∧ ev ≠ 0
          · simp only [if_pos htr]
          · simp only [if_neg htr]
            rfl

/-- Claim C9: two analysis runs on the same image and version that differ
only in the caller-supplied endianness parameter produce identical results:
the full load-address search, the quick test and the decoded symbol table
are all equal, because whenever a symbol table is found the endian detector
overwrites the supplied value before any record is decoded. -/
theorem c9_endian_param_independent (fw : List Nat) (ver : Nat) (e1 e2 : Option Nat)
    (fuel : Nat) (hver : ver = 5 ∨ ver = 6) :
    findLoadingAddressRun fw ver e1 fuel = findLoadingAddressRun fw ver e2 fuel ∧
    quickTestRun fw ver e1 = quickTestRun fw ver e2 ∧
    (prepareRun fw ver e1).map (fun st => st.symTab) =
      (prepareRun fw ver e2).map (fun st => st.symTab) := by
  have hproj := prepareRun_proj fw ver e1 e2
  cases h1 : prepareRun fw ver e1 with
  | error u =>
    cases h2 : prepareRun fw ver e2 with
    | error v =>
      refine ⟨?_, ?_, ?_⟩
      · unfold findLoadingAddressRun
        rw [h1, h2]
      · unfold quickTestRun
        rw [h1, h2]
      · rfl
    | ok st2 =>
      rw [h1, h2] at hproj
      exact absurd hproj (by simp [Except.map])
  | ok st1 =>
    cases h2 : prepareRun fw ver e2 with
    | error v =>
      rw [h1, h2] at hproj
      exact absurd hproj (by simp [Except.map])
    | ok st2 =>
      rw [h1, h2] at hproj
      simp only [Except.map, Except.ok.injEq, Prod.mk.injEq] at hproj
      obtain ⟨hh, ht⟩ := hproj
      refine ⟨?_, ?_, ?_⟩
      · unfold findLoadingAddressRun
        rw [h1, h2]
        dsimp only
        rw [hh, ht]
      · unfold quickTestRun
        rw [h1, h2]
        dsimp only
        rw [hh, ht]
      · show Except.ok st1.symTab = Except.ok st2.symTab
        rw [ht]

/-- Witness for C9 at a concrete empty image, version 5 and two different
supplied endianness values. -/
theorem c9_endian_param_independent_witness :
    ((5 : Nat) = 5 ∨ (5 : Nat) = 6) ∧
    (findLoadingAddressRun [] 5 (some 1) 3 = findLoadingAddressRun [] 5 (some 2) 3 ∧
      quickTestRun [] 5 (some 1) = quickTestRun [] 5 (some 2) ∧
      (prepareRun [] 5 (some 1)).map (fun st => st.symTab) =
        (prepareRun [] 5 (some 2)).map (fun st => st.symTab)) :=
  ⟨Or.inl rfl, c9_endian_param_independent [] 5 (some 1) (some 2) 3 (Or.inl rfl)⟩
